import Mathlib

/-!
Verification of the backtracking constraint solvers:
a 9×9 Sudoku solver (Q1), an interval-scheduling resource assigner (Q2),
and a bounded combination-sum enumerator (Q3).

The Python code mutates state in place; here every mutable structure is
threaded explicitly, and recursion over the (finite) search tree is made
structural with a fuel argument chosen large enough at the top level
(each recursive call of the Python functions strictly decreases the
number of empty cells / increases the task or item index, so the fuel
branch is never reached by the top-level entry points).
-/

/-! ### List helpers -/

/-- Writing back the value a list already holds at an index leaves it unchanged
(also covers out-of-range indices, where `List.set` is the identity). -/
theorem list_set_getD (l : List α) (k : Nat) (d : α) : l.set k (l.getD k d) = l := by
  induction l generalizing k with
  | nil => rfl
  | cons a t ih =>
    cases k with
    | zero => rfl
    | succ k =>
      show a :: t.set k (t.getD k d) = a :: t
      rw [ih]

theorem list_getD_set_self (l : List α) (k : Nat) (x d : α) (h : k < l.length) :
    (l.set k x).getD k d = x := by
  induction l generalizing k with
  | nil => simp at h
  | cons a t ih =>
    cases k with
    | zero => rfl
    | succ k =>
      simp only [List.length_cons, Nat.succ_lt_succ_iff] at h
      simpa [List.set, List.getD] using ih k h

theorem list_getD_set_ne (l : List α) (k i : Nat) (x d : α) (h : k ≠ i) :
    (l.set k x).getD i d = l.getD i d := by
  induction l generalizing k i with
  | nil => rfl
  | cons a t ih =>
    cases k with
    | zero => cases i with
      | zero => exact absurd rfl h
      | succ i => rfl
    | succ k =>
      cases i with
      | zero => rfl
      | succ i =>
        simpa [List.set, List.getD] using ih k i (fun hk => h (by omega))

theorem list_set_set (l : List α) (k : Nat) (x y : α) :
    (l.set k x).set k y = l.set k y := by
  induction l generalizing k with
  | nil => rfl
  | cons a t ih =>
    cases k with
    | zero => rfl
    | succ k => simp [List.set, ih]

theorem list_length_set (l : List α) (k : Nat) (x : α) :
    (l.set k x).length = l.length := by
  simp

/-! ### Q1: Sudoku solver (`SudokuSolver` in `Q1.py`) -/

/-- A board is a 9×9 matrix of small integers, 0 meaning empty
(list of rows, as in the Python list-of-lists representation). -/
abbrev Grid := List (List Nat)

def getCell (g : Grid) (i j : Nat) : Nat := (g.getD i []).getD j 0

def setCell (g : Grid) (i j v : Nat) : Grid := g.set i ((g.getD i []).set j v)

/-- `SudokuSolver.is_valid`: `num` appears nowhere in row `row`,
column `col`, or the 3×3 box containing `(row, col)`. -/
def is_valid (board : Grid) (row col num : Nat) : Bool :=
  ((List.range 9).all fun x => getCell board row x ≠ num) &&
  ((List.range 9).all fun x => getCell board x col ≠ num) &&
  (((List.range 3).all fun i => (List.range 3).all fun j =>
      getCell board (i + (row - row % 3)) (j + (col - col % 3)) ≠ num))

/-- The 81 cell coordinates in row-major order (the order of the nested
`for i in range(9): for j in range(9)` loops). -/
def gridCells : List (Nat × Nat) :=
  (List.range 9).flatMap fun i => (List.range 9).map fun j => (i, j)

/-- First empty cell in row-major order, if any. -/
def findEmpty (g : Grid) : Option (Nat × Nat) :=
  gridCells.find? fun p => getCell g p.1 p.2 == 0

/-- Undoing a trial assignment (`board[i][j] = num` then `board[i][j] = 0`)
restores a board whose cell `(i, j)` was empty. -/
theorem setCell_setCell_restore (g : Grid) (i j n : Nat) (hg : getCell g i j = 0) :
    setCell (setCell g i j n) i j 0 = g := by
  show (setCell g i j n |>.set i _) = g
  unfold setCell
  rw [list_set_set]
  have hrow : ((g.set i ((g.getD i []).set j n)).getD i []) =
      if i < g.length then (g.getD i []).set j n else [] := by
    by_cases hi : i < g.length
    · rw [list_getD_set_self _ _ _ _ hi, if_pos hi]
    · rw [if_neg hi]
      have : g.set i ((g.getD i []).set j n) = g :=
        List.set_eq_of_length_le (by omega)
      rw [this]
      simp [List.getD, List.getElem?_eq_none (by omega : g.length ≤ i)]
  rw [hrow]
  by_cases hi : i < g.length
  · rw [if_pos hi, list_set_set]
    have : (g.getD i []).set j 0 = g.getD i [] := by
      have h0 := list_set_getD (g.getD i []) j 0
      have hg2 : (g.getD i []).getD j 0 = 0 := hg
      rwa [hg2] at h0
    rw [this, list_set_getD]
  · rw [if_neg hi]
    exact List.set_eq_of_length_le (by omega)

/-- The `for num in range(1, 10)` loop body of `solve_sudoku`: try each
candidate value at the empty cell `(i, j)`, recursing via `solveF`;
on recursive failure reset the cell to 0 and continue. -/
def tryNums (solveF : Grid → Bool × Grid) (i j : Nat) :
    List Nat → Grid → Bool × Grid
  | [], g => (false, g)
  | n :: ns, g =>
    if is_valid g i j n then
      match solveF (setCell g i j n) with
      | (true, g') => (true, g')
      | (false, g') => tryNums solveF i j ns (setCell g' i j 0)
    else tryNums solveF i j ns g

/-- `SudokuSolver.solve_sudoku`, with explicit state passing: returns the
Python return value together with the board as left by the call. -/
def solveAux : Nat → Grid → Bool × Grid
  | 0, g => (false, g)
  | fuel + 1, g =>
    match findEmpty g with
    | none => (true, g)
    | some (i, j) => tryNums (solveAux fuel) i j (List.range' 1 9) g

def countZeros (g : Grid) : Nat :=
  gridCells.countP fun p => getCell g p.1 p.2 == 0

def solve_sudoku (g : Grid) : Bool × Grid := solveAux (countZeros g + 1) g

/-! #### C1: grid invariance on failure -/

theorem tryNums_false_restores
    (solveF : Grid → Bool × Grid)
    (hF : ∀ g, (solveF g).1 = false → (solveF g).2 = g)
    (i j : Nat) :
    ∀ (ns : List Nat) (g : Grid), getCell g i j = 0 →
      (tryNums solveF i j ns g).1 = false → (tryNums solveF i j ns g).2 = g := by
  intro ns
  induction ns with
  | nil => intro g _ _; rfl
  | cons n ns ih =>
    intro g hg hfalse
    by_cases hv : is_valid g i j n
    · simp only [tryNums, hv, if_true] at hfalse ⊢
      rcases hres : solveF (setCell g i j n) with ⟨b, g'⟩
      cases b with
      | true => simp [hres] at hfalse
      | false =>
        have hg' : g' = setCell g i j n := by
          have := hF (setCell g i j n)
          rw [hres] at this; exact this rfl
        simp only [hres] at hfalse ⊢
        have hset : setCell g' i j 0 = g := by
          rw [hg']; exact setCell_setCell_restore g i j n hg
        rw [hset] at hfalse ⊢
        exact ih g hg hfalse
    · simp only [tryNums, hv, if_false] at hfalse ⊢
      exact ih g hg hfalse

theorem solveAux_false_restores :
    ∀ (fuel : Nat) (g : Grid),
      (solveAux fuel g).1 = false → (solveAux fuel g).2 = g := by
  intro fuel
  induction fuel with
  | zero => intro g _; rfl
  | succ fuel ih =>
    intro g hfalse
    simp only [solveAux] at hfalse ⊢
    rcases hfe : findEmpty g with _ | ⟨i, j⟩
    · simp [hfe] at hfalse
    · simp only [hfe] at hfalse ⊢
      have hg0 : getCell g i j = 0 := by
        have hfe' : gridCells.find? (fun p => getCell g p.1 p.2 == 0) = some (i, j) := hfe
        have := List.find?_some hfe'
        simpa using this
      exact tryNums_false_restores (solveAux fuel) ih i j _ g hg0 hfalse

/-- C1: if `solve_sudoku` returns false, the board equals its pre-call
state cell-for-cell; every trial assignment made during the failed
search has been undone. -/
theorem solve_sudoku_grid_invariant_on_failure (g : Grid)
    (h9 : g.length = 9 ∧ ∀ r ∈ g, r.length = 9)
    (hfail : (solve_sudoku g).1 = false) :
    (solve_sudoku g).2 = g :=
  solveAux_false_restores (countZeros g + 1) g hfail

/-- An unsolvable board: the single empty cell `(0,0)` has its row
holding 2..9 and the value 1 blocked in its column. -/
def stuckGrid : Grid :=
  [[0, 2, 3, 4, 5, 6, 7, 8, 9],
   [1, 9, 9, 9, 9, 9, 9, 9, 9],
   [9, 9, 9, 9, 9, 9, 9, 9, 9],
   [9, 9, 9, 9, 9, 9, 9, 9, 9],
   [9, 9, 9, 9, 9, 9, 9, 9, 9],
   [9, 9, 9, 9, 9, 9, 9, 9, 9],
   [9, 9, 9, 9, 9, 9, 9, 9, 9],
   [9, 9, 9, 9, 9, 9, 9, 9, 9],
   [9, 9, 9, 9, 9, 9, 9, 9, 9]]

theorem solve_sudoku_grid_invariant_on_failure_witness :
    (solve_sudoku stuckGrid).2 = stuckGrid :=
  solve_sudoku_grid_invariant_on_failure stuckGrid (by decide) (by decide)

/-! #### `SudokuSolver.count_all_solutions` -/

/-- The state a call to `count_all_solutions` leaves behind: the Python
return value (the method only ever executes a bare `return`, so it is
always `None`), the board, `self.solution_count` and `self.all_solutions`. -/
structure CountResult where
  ret : Option Int
  board : Grid
  count : Nat
  sols : List Grid
deriving DecidableEq

/-- The early-exit guard `max_solutions is not None and
self.solution_count >= max_solutions`. -/
def capReached : Option Nat → Nat → Bool
  | none, _ => false
  | some k, c => k ≤ c

/-- The `for num in range(1, 10)` loop body of `count_all_solutions`:
recurse on every feasible value, resetting the cell afterwards, threading
the counter and the solution list. -/
def countNums (countF : Grid → Nat → List Grid → CountResult) (i j : Nat) :
    List Nat → Grid → Nat → List Grid → CountResult
  | [], g, c, s => ⟨none, g, c, s⟩
  | n :: ns, g, c, s =>
    if is_valid g i j n then
      let r := countF (setCell g i j n) c s
      countNums countF i j ns (setCell r.board i j 0) r.count r.sols
    else countNums countF i j ns g c s

/-- `SudokuSolver.count_all_solutions` with explicit state passing. -/
def count_aux : Nat → Option Nat → Grid → Nat → List Grid → CountResult
  | 0, _, g, c, s => ⟨none, g, c, s⟩
  | fuel + 1, cap, g, c, s =>
    if capReached cap c then ⟨none, g, c, s⟩
    else match findEmpty g with
      | none => ⟨none, g, c + 1, s ++ [g]⟩
      | some (i, j) => countNums (count_aux fuel cap) i j (List.range' 1 9) g c s

def count_all_solutions (g : Grid) (cap : Option Nat) (c : Nat) (s : List Grid) :
    CountResult :=
  count_aux (countZeros g + 1) cap g c s

/-- The complete solutions reachable from a board, in the search order of
`count_all_solutions`, with no counter and no early-exit guard. -/
def enumNums (enumF : Grid → List Grid) (i j : Nat) : List Nat → Grid → List Grid
  | [], _ => []
  | n :: ns, g =>
    (if is_valid g i j n then enumF (setCell g i j n) else []) ++ enumNums enumF i j ns g

def enum_aux : Nat → Grid → List Grid
  | 0, _ => []
  | fuel + 1, g =>
    match findEmpty g with
    | none => [g]
    | some (i, j) => enumNums (enum_aux fuel) i j (List.range' 1 9) g

/-! #### Counting lemmas -/

theorem countNums_delta
    (countF : Grid → Nat → List Grid → CountResult)
    (hF : ∀ g c s, ∃ t : List Grid,
      (countF g c s).sols = s ++ t ∧ (countF g c s).count = c + t.length)
    (i j : Nat) :
    ∀ (ns : List Nat) (g : Grid) (c : Nat) (s : List Grid),
      ∃ t : List Grid, (countNums countF i j ns g c s).sols = s ++ t ∧
        (countNums countF i j ns g c s).count = c + t.length := by
  intro ns
  induction ns with
  | nil => intro g c s; exact ⟨[], by simp [countNums]⟩
  | cons n ns ih =>
    intro g c s
    by_cases hv : is_valid g i j n
    · simp only [countNums, hv, if_true]
      obtain ⟨t1, ht1s, ht1c⟩ := hF (setCell g i j n) c s
      obtain ⟨t2, ht2s, ht2c⟩ := ih (setCell (countF (setCell g i j n) c s).board i j 0)
        (countF (setCell g i j n) c s).count (countF (setCell g i j n) c s).sols
      refine ⟨t1 ++ t2, ?_, ?_⟩
      · rw [ht2s, ht1s, List.append_assoc]
      · rw [ht2c, ht1c, List.length_append]; omega
    · simp only [countNums, hv, if_false]
      exact ih g c s

theorem count_aux_delta :
    ∀ (fuel : Nat) (cap : Option Nat) (g : Grid) (c : Nat) (s : List Grid),
      ∃ t : List Grid, (count_aux fuel cap g c s).sols = s ++ t ∧
        (count_aux fuel cap g c s).count = c + t.length := by
  intro fuel
  induction fuel with
  | zero => intro cap g c s; exact ⟨[], by simp [count_aux]⟩
  | succ fuel ih =>
    intro cap g c s
    simp only [count_aux]
    by_cases hcap : capReached cap c
    · exact ⟨[], by simp [hcap]⟩
    · simp only [hcap, Bool.false_eq_true, if_false]
      rcases hfe : findEmpty g with _ | ⟨i, j⟩
      · exact ⟨[g], by simp⟩
      · exact countNums_delta (count_aux fuel cap) (ih cap) i j _ g c s

theorem countNums_cap_le (k : Nat)
    (countF : Grid → Nat → List Grid → CountResult)
    (hF : ∀ g c s, c ≤ k → (countF g c s).count ≤ k)
    (i j : Nat) :
    ∀ (ns : List Nat) (g : Grid) (c : Nat) (s : List Grid),
      c ≤ k → (countNums countF i j ns g c s).count ≤ k := by
  intro ns
  induction ns with
  | nil => intro g c s hc; exact hc
  | cons n ns ih =>
    intro g c s hc
    by_cases hv : is_valid g i j n
    · simp only [countNums, hv, if_true]
      exact ih _ _ _ (hF (setCell g i j n) c s hc)
    · simp only [countNums, hv, if_false]
      exact ih g c s hc

theorem count_aux_mono :
    ∀ (fuel : Nat) (cap : Option Nat) (g : Grid) (c : Nat) (s : List Grid),
      c ≤ (count_aux fuel cap g c s).count := by
  intro fuel cap g c s
  obtain ⟨t, _, htc⟩ := count_aux_delta fuel cap g c s
  omega

theorem count_aux_cap_le (k : Nat) :
    ∀ (fuel : Nat) (g : Grid) (c : Nat) (s : List Grid),
      c ≤ k → (count_aux fuel (some k) g c s).count ≤ k := by
  intro fuel
  induction fuel with
  | zero => intro g c s hc; exact hc
  | succ fuel ih =>
    intro g c s hc
    simp only [count_aux]
    by_cases hcap : capReached (some k) c
    · simp only [hcap, if_true]; exact hc
    · simp only [hcap, Bool.false_eq_true, if_false]
      have hck : c < k := by
        simp only [capReached, decide_eq_true_eq] at hcap; omega
      rcases hfe : findEmpty g with _ | ⟨i, j⟩
      · simpa using hck
      · exact countNums_cap_le k (count_aux fuel (some k)) ih i j _ g c s hc

theorem countNums_ret_none (countF : Grid → Nat → List Grid → CountResult) (i j : Nat) :
    ∀ (ns : List Nat) (g : Grid) (c : Nat) (s : List Grid),
      (countNums countF i j ns g c s).ret = none := by
  intro ns
  induction ns with
  | nil => intro g c s; rfl
  | cons n ns ih =>
    intro g c s
    by_cases hv : is_valid g i j n
    · simp only [countNums, hv, if_true]; exact ih _ _ _
    · simp only [countNums, hv, if_false]; exact ih g c s

theorem count_aux_ret_none :
    ∀ (fuel : Nat) (cap : Option Nat) (g : Grid) (c : Nat) (s : List Grid),
      (count_aux fuel cap g c s).ret = none := by
  intro fuel cap g c s
  cases fuel with
  | zero => rfl
  | succ f =>
    simp only [count_aux]
    by_cases hcap : capReached cap c
    · simp [hcap]
    · simp only [hcap, Bool.false_eq_true, if_false]
      rcases hfe : findEmpty g with _ | ⟨i, j⟩
      · rfl
      · exact countNums_ret_none (count_aux f cap) i j _ g c s

theorem countNums_unbounded
    (countF : Grid → Nat → List Grid → CountResult) (enumF : Grid → List Grid)
    (hF : ∀ g c s, countF g c s = ⟨none, g, c + (enumF g).length, s ++ enumF g⟩)
    (i j : Nat) :
    ∀ (ns : List Nat) (g : Grid) (c : Nat) (s : List Grid), getCell g i j = 0 →
      countNums countF i j ns g c s =
        ⟨none, g, c + (enumNums enumF i j ns g).length, s ++ enumNums enumF i j ns g⟩ := by
  intro ns
  induction ns with
  | nil => intro g c s _; simp [countNums, enumNums]
  | cons n ns ih =>
    intro g c s hg
    by_cases hv : is_valid g i j n
    · simp only [countNums, enumNums, hv, if_true, hF (setCell g i j n) c s]
      rw [setCell_setCell_restore g i j n hg]
      rw [ih g _ _ hg]
      simp [List.append_assoc, Nat.add_assoc]
    · simp only [countNums, enumNums, hv, if_false]
      rw [ih g c s hg]
      simp

theorem count_aux_unbounded :
    ∀ (fuel : Nat) (g : Grid) (c : Nat) (s : List Grid),
      count_aux fuel none g c s =
        ⟨none, g, c + (enum_aux fuel g).length, s ++ enum_aux fuel g⟩ := by
  intro fuel
  induction fuel with
  | zero => intro g c s; simp [count_aux, enum_aux]
  | succ fuel ih =>
    intro g c s
    simp only [count_aux, enum_aux, capReached, Bool.false_eq_true, if_false]
    rcases hfe : findEmpty g with _ | ⟨i, j⟩
    · simp
    · have hg0 : getCell g i j = 0 := by
        have hfe' : gridCells.find? (fun p => getCell g p.1 p.2 == 0) = some (i, j) := hfe
        have := List.find?_some hfe'
        simpa using this
      exact countNums_unbounded (count_aux fuel none) (enum_aux fuel) ih i j _ g c s hg0

/-! #### C5: the counting interface -/

/-- A complete valid board: every cell filled, so counting finds exactly
one solution immediately. -/
def solvedGrid : Grid :=
  [[1, 2, 3, 4, 5, 6, 7, 8, 9],
   [4, 5, 6, 7, 8, 9, 1, 2, 3],
   [7, 8, 9, 1, 2, 3, 4, 5, 6],
   [2, 3, 4, 5, 6, 7, 8, 9, 1],
   [5, 6, 7, 8, 9, 1, 2, 3, 4],
   [8, 9, 1, 2, 3, 4, 5, 6, 7],
   [3, 4, 5, 6, 7, 8, 9, 1, 2],
   [6, 7, 8, 9, 1, 2, 3, 4, 5],
   [9, 1, 2, 3, 4, 5, 6, 7, 8]]

/-- C5 counterexample: `count_all_solutions` does not return an int equal
to the number of solutions found — on a board with exactly one completion
the counter reaches 1 but the method's return value is `None`, since every
exit path of the Python method is a bare `return`. -/
theorem count_all_solutions_returns_none :
    (count_all_solutions solvedGrid none 0 []).count = 1 ∧
      (count_all_solutions solvedGrid none 0 []).ret ≠
        some ((count_all_solutions solvedGrid none 0 []).count : Int) := by
  decide

/-- C5 (amended): a call to `count_all_solutions` returns `None` (the count
is exposed through `solution_count`, not the return value); starting from
count `0`, it appends exactly one deep copy of the grid per counted
solution, never counts beyond `cap` when `cap` is not `None`, and with
`cap = None` the early-exit guard never fires, so it performs the full
unbounded enumeration of complete solutions. -/
theorem count_all_solutions_spec (g : Grid) (cap : Option Nat) :
    (count_all_solutions g cap 0 []).ret = none ∧
    (count_all_solutions g cap 0 []).count = (count_all_solutions g cap 0 []).sols.length ∧
    (∀ k, cap = some k → (count_all_solutions g cap 0 []).count ≤ k) ∧
    (cap = none →
      (count_all_solutions g cap 0 []).count = (enum_aux (countZeros g + 1) g).length ∧
      (count_all_solutions g cap 0 []).sols = enum_aux (countZeros g + 1) g) := by
  refine ⟨?_, ?_, ?_, ?_⟩
  · exact count_aux_ret_none (countZeros g + 1) cap g 0 []
  · obtain ⟨t, hs, hc⟩ := count_aux_delta (countZeros g + 1) cap g 0 []
    show (count_aux (countZeros g + 1) cap g 0 []).count =
      (count_aux (countZeros g + 1) cap g 0 []).sols.length
    rw [hs, hc]; simp
  · intro k hk
    subst hk
    exact count_aux_cap_le k (countZeros g + 1) g 0 [] (Nat.zero_le k)
  · intro hk
    subst hk
    show (count_aux (countZeros g + 1) none g 0 []).count = _ ∧
      (count_aux (countZeros g + 1) none g 0 []).sols = _
    rw [count_aux_unbounded]
    simp

theorem count_all_solutions_spec_witness :
    (count_all_solutions solvedGrid (some 5) 0 []).count ≤ 5 ∧
      (count_all_solutions solvedGrid none 0 []).count =
        (enum_aux (countZeros solvedGrid + 1) solvedGrid).length :=
  ⟨(count_all_solutions_spec solvedGrid (some 5)).2.2.1 5 rfl,
   ((count_all_solutions_spec solvedGrid none).2.2.2 rfl).1⟩

/-! #### C9: the counter and solution list accumulate across calls -/

/-- A sequence of `count_all_solutions` calls on one solver instance,
threading `solution_count` and `all_solutions` (which `__init__` starts
at `0` and `[]` and no method ever resets). -/
def runCalls (calls : List (Grid × Option Nat)) (st : Nat × List Grid) :
    Nat × List Grid :=
  calls.foldl
    (fun st c =>
      ((count_all_solutions c.1 c.2 st.1 st.2).count,
       (count_all_solutions c.1 c.2 st.1 st.2).sols))
    st

/-- C9: starting from a freshly constructed solver, after any sequence of
`count_all_solutions` calls the counter equals the length of the recorded
solution list, and each call only ever appends to the list (one grid per
counted solution) and increases the counter — results accumulate rather
than being replaced. -/
theorem count_all_solutions_accumulates :
    ∀ calls : List (Grid × Option Nat),
      (runCalls calls (0, [])).1 = (runCalls calls (0, [])).2.length ∧
      ∀ (g : Grid) (cap : Option Nat) (c : Nat) (s : List Grid),
        c ≤ (count_all_solutions g cap c s).count ∧
        ∃ t : List Grid, (count_all_solutions g cap c s).sols = s ++ t ∧
          (count_all_solutions g cap c s).count = c + t.length := by
  intro calls
  constructor
  · have key : ∀ (cs : List (Grid × Option Nat)) (st : Nat × List Grid),
        st.1 = st.2.length → (runCalls cs st).1 = (runCalls cs st).2.length := by
      intro cs
      induction cs with
      | nil => intro st h; exact h
      | cons hd tl ih =>
        intro st h
        apply ih
        obtain ⟨t, hs, hc⟩ := count_aux_delta (countZeros hd.1 + 1) hd.2 hd.1 st.1 st.2
        show (count_aux (countZeros hd.1 + 1) hd.2 hd.1 st.1 st.2).count =
          (count_aux (countZeros hd.1 + 1) hd.2 hd.1 st.1 st.2).sols.length
        rw [hs, hc, List.length_append, h]
    exact key calls (0, []) rfl
  · intro g cap c s
    obtain ⟨t, hs, hc⟩ := count_aux_delta (countZeros g + 1) cap g c s
    refine ⟨?_, t, hs, hc⟩
    show c ≤ (count_aux (countZeros g + 1) cap g c s).count
    omega

/-! ### Q2: task scheduling (`Task` / `TaskScheduler` in `Q2.py`; the class `Task` is named `SchedTask` here since `Task` is taken by the Lean core library) -/

/-- `SchedTask`: start/end times and a mutable resource assignment
(`None` until assigned). The Python field `end` is named `stop` here
because `end` is a Lean keyword. -/
structure SchedTask where
  id : Int
  start : Int
  stop : Int
  resource : Option Nat
deriving DecidableEq

instance : Inhabited SchedTask := ⟨⟨0, 0, 0, none⟩⟩

/-- `SchedTask.overlaps`: half-open interval intersection,
`not (self.end <= other.start or other.end <= self.start)`. -/
def SchedTask.overlaps (a b : SchedTask) : Bool :=
  !(decide (a.stop ≤ b.start) || decide (b.stop ≤ a.start))

/-- `TaskScheduler.build_conflict_graph`: the double loop over unordered
pairs `i < j` appends `j` to `conflicts[i]` and `i` to `conflicts[j]`
whenever the intervals overlap; since the outer index runs in increasing
order, the adjacency list of `i` is exactly the ascending list of all
other indices whose interval overlaps `i`'s. -/
def build_conflict_graph (tasks : List SchedTask) : List (List Nat) :=
  (List.range tasks.length).map fun i =>
    (List.range tasks.length).filter fun j =>
      j != i && (tasks.getD i default).overlaps (tasks.getD j default)

/-- `TaskScheduler.is_valid_assignment`: no task conflicting with
`task_idx` currently holds `resource_id`. -/
def is_valid_assignment (G : List (List Nat)) (tasks : List SchedTask)
    (task_idx resource_id : Nat) : Bool :=
  (G.getD task_idx []).all fun c =>
    (tasks.getD c default).resource ≠ some resource_id

/-- Assignment `self.tasks[idx].resource = r` as a pure list update. -/
def setResource (tasks : List SchedTask) (idx : Nat) (r : Option Nat) : List SchedTask :=
  tasks.set idx { tasks.getD idx default with resource := r }

/-- The `for resource_id in range(1, K+1)` loop of `solve_backtracking`:
assign each feasible resource, recurse via `solveF`, and on recursive
failure unassign (set back to `None`) and try the next resource. -/
def tryResources (solveF : List SchedTask → Bool × List SchedTask)
    (G : List (List Nat)) (idx : Nat) :
    List Nat → List SchedTask → Bool × List SchedTask
  | [], tasks => (false, tasks)
  | r :: rs, tasks =>
    if is_valid_assignment G tasks idx r then
      match solveF (setResource tasks idx (some r)) with
      | (true, t') => (true, t')
      | (false, t') => tryResources solveF G idx rs (setResource t' idx none)
    else tryResources solveF G idx rs tasks

/-- `TaskScheduler.solve_backtracking`, with explicit state passing
(the task list never changes length, so the fuel `tasks.length + 1`
supplied by `solve` always suffices). -/
def solve_backtracking (G : List (List Nat)) (K : Nat) :
    Nat → Nat → List SchedTask → Bool × List SchedTask
  | 0, _, tasks => (false, tasks)
  | fuel + 1, idx, tasks =>
    if idx = tasks.length then (true, tasks)
    else tryResources (solve_backtracking G K fuel (idx + 1)) G idx
      (List.range' 1 K) tasks

/-- `TaskScheduler.solve`: build the conflict graph at construction and
run the backtracking search from task 0. -/
def solve (tasks : List SchedTask) (K : Nat) : Bool × List SchedTask :=
  solve_backtracking (build_conflict_graph tasks) K (tasks.length + 1) 0 tasks

/-! #### C6: K-coloring boundary -/

/-- Three mutually overlapping intervals `[0,5)`, `[1,6)`, `[2,7)`. -/
def tasksC6 : List SchedTask := [⟨1, 0, 5, none⟩, ⟨2, 1, 6, none⟩, ⟨3, 2, 7, none⟩]

/-- C6: for three mutually overlapping tasks, `solve` fails with
`K = 2` resources and succeeds with `K = 3`. -/
theorem solve_k_coloring_boundary :
    (solve tasksC6 2).1 = false ∧ (solve tasksC6 3).1 = true := by
  decide

/-! #### Q2 helper lemmas -/

theorem list_getD_of_length_le (l : List α) (i : Nat) (d : α) (h : l.length ≤ i) :
    l.getD i d = d := by
  simp [List.getD, List.getElem?_eq_none h]

theorem list_getD_mem (l : List α) (j : Nat) (d : α) (h : j < l.length) :
    l.getD j d ∈ l := by
  induction l generalizing j with
  | nil => simp at h
  | cons a t ih =>
    cases j with
    | zero => exact List.mem_cons_self a t
    | succ j => exact List.mem_cons_of_mem a (ih j (by simpa using h))

theorem list_getD_map_range (n : Nat) (f : Nat → α) (i : Nat) (d : α) :
    ((List.range n).map f).getD i d = if i < n then f i else d := by
  by_cases hi : i < n
  · rw [if_pos hi]
    simp [List.getD, List.getElem?_map, List.getElem?_range, hi]
  · rw [if_neg hi]
    exact list_getD_of_length_le _ _ _ (by simpa using le_of_not_lt hi)

theorem length_setResource (tasks : List SchedTask) (idx : Nat) (r : Option Nat) :
    (setResource tasks idx r).length = tasks.length := by
  simp [setResource]

theorem getD_setResource (tasks : List SchedTask) (idx : Nat) (r : Option Nat) (i : Nat) :
    (setResource tasks idx r).getD i default =
      if i = idx ∧ idx < tasks.length
      then { tasks.getD idx default with resource := r }
      else tasks.getD i default := by
  by_cases hii : i = idx
  · subst hii
    by_cases hi : i < tasks.length
    · rw [if_pos ⟨rfl, hi⟩]
      exact list_getD_set_self _ _ _ _ hi
    · rw [if_neg (fun h => hi h.2)]
      unfold setResource
      rw [List.set_eq_of_length_le (le_of_not_lt hi)]
  · rw [if_neg (fun h => hii h.1)]
    exact list_getD_set_ne _ _ _ _ _ (fun h => hii h.symm)

theorem start_setResource (tasks : List SchedTask) (idx : Nat) (r : Option Nat) (i : Nat) :
    ((setResource tasks idx r).getD i default).start = (tasks.getD i default).start := by
  rw [getD_setResource]
  split
  · rename_i h; rw [h.1]
  · rfl

theorem stop_setResource (tasks : List SchedTask) (idx : Nat) (r : Option Nat) (i : Nat) :
    ((setResource tasks idx r).getD i default).stop = (tasks.getD i default).stop := by
  rw [getD_setResource]
  split
  · rename_i h; rw [h.1]
  · rfl

theorem resource_setResource_ne (tasks : List SchedTask) (idx : Nat) (r : Option Nat)
    (i : Nat) (h : i ≠ idx) :
    ((setResource tasks idx r).getD i default).resource = (tasks.getD i default).resource := by
  rw [getD_setResource, if_neg (fun hh => h hh.1)]

theorem resource_setResource_self (tasks : List SchedTask) (idx : Nat) (r : Option Nat)
    (h : idx < tasks.length) :
    ((setResource tasks idx r).getD idx default).resource = r := by
  rw [getD_setResource, if_pos ⟨rfl, h⟩]

theorem overlaps_eq_of_intervals (a a' b b' : SchedTask)
    (h1 : a.start = a'.start) (h2 : a.stop = a'.stop)
    (h3 : b.start = b'.start) (h4 : b.stop = b'.stop) :
    a.overlaps b = a'.overlaps b' := by
  cases a; cases a'; cases b; cases b'
  simp_all [SchedTask.overlaps]

theorem overlaps_comm (a b : SchedTask) : a.overlaps b = b.overlaps a := by
  simp [SchedTask.overlaps, Bool.or_comm]

theorem overlaps_setResource (tasks : List SchedTask) (idx : Nat) (r : Option Nat) (i c : Nat) :
    ((setResource tasks idx r).getD i default).overlaps
        ((setResource tasks idx r).getD c default) =
      (tasks.getD i default).overlaps (tasks.getD c default) :=
  overlaps_eq_of_intervals _ _ _ _ (start_setResource tasks idx r i)
    (stop_setResource tasks idx r i) (start_setResource tasks idx r c)
    (stop_setResource tasks idx r c)

theorem setResource_restore (tasks : List SchedTask) (idx : Nat) (r : Nat)
    (h : (tasks.getD idx default).resource = none) :
    setResource (setResource tasks idx (some r)) idx none = tasks := by
  unfold setResource
  rw [list_set_set]
  by_cases hi : idx < tasks.length
  · rw [list_getD_set_self _ _ _ _ hi]
    have hv : ∀ v : SchedTask, v.resource = none →
        ({ { v with resource := some r } with resource := none } : SchedTask) = v := by
      intro v hvr; cases v; simp_all
    rw [hv _ h, list_set_getD]
  · exact List.set_eq_of_length_le (le_of_not_lt hi)

/-! #### Q2 search invariants -/

/-- All tasks from index `idx` on are still unassigned. -/
def allNoneFrom (idx : Nat) (tasks : List SchedTask) : Prop :=
  ∀ j, idx ≤ j → j < tasks.length → (tasks.getD j default).resource = none

/-- All tasks before index `idx` hold a resource in `1..K`. -/
def assignedBelow (K idx : Nat) (tasks : List SchedTask) : Prop :=
  ∀ j, j < idx → j < tasks.length →
    ∃ r, 1 ≤ r ∧ r ≤ K ∧ (tasks.getD j default).resource = some r

/-- No two distinct overlapping tasks hold the same resource. -/
def noSharedResource (tasks : List SchedTask) : Prop :=
  ∀ i j, i < tasks.length → j < tasks.length → i ≠ j →
    (tasks.getD i default).overlaps (tasks.getD j default) = true →
    ¬∃ r : Nat, (tasks.getD i default).resource = some r ∧
      (tasks.getD j default).resource = some r

/-- Two task lists with identical intervals position by position. -/
def sameIntervals (t1 t2 : List SchedTask) : Prop :=
  t1.length = t2.length ∧ ∀ j, j < t1.length →
    (t1.getD j default).start = (t2.getD j default).start ∧
    (t1.getD j default).stop = (t2.getD j default).stop

/-- `G` is the conflict graph of `tasks`: an edge exists iff the intervals
overlap. -/
def graphMatches (G : List (List Nat)) (tasks : List SchedTask) : Prop :=
  ∀ i c, c ∈ G.getD i [] ↔
    (i < tasks.length ∧ c < tasks.length ∧ c ≠ i ∧
      (tasks.getD i default).overlaps (tasks.getD c default) = true)

/-- What a successful search guarantees about the final task list. -/
def schedPost (K : Nat) (tasks out : List SchedTask) : Prop :=
  out.length = tasks.length ∧
  (∀ j, j < out.length → ∃ r, 1 ≤ r ∧ r ≤ K ∧
    (out.getD j default).resource = some r) ∧
  noSharedResource out ∧ sameIntervals tasks out

theorem sameIntervals_refl (t : List SchedTask) : sameIntervals t t :=
  ⟨rfl, fun _ _ => ⟨rfl, rfl⟩⟩

theorem sameIntervals_trans {a b c : List SchedTask}
    (h1 : sameIntervals a b) (h2 : sameIntervals b c) : sameIntervals a c := by
  obtain ⟨hl1, hp1⟩ := h1
  obtain ⟨hl2, hp2⟩ := h2
  refine ⟨hl1.trans hl2, fun j hj => ?_⟩
  obtain ⟨hs1, ht1⟩ := hp1 j hj
  obtain ⟨hs2, ht2⟩ := hp2 j (by omega)
  exact ⟨hs1.trans hs2, ht1.trans ht2⟩

theorem sameIntervals_setResource (tasks : List SchedTask) (idx : Nat) (r : Option Nat) :
    sameIntervals tasks (setResource tasks idx r) :=
  ⟨(length_setResource tasks idx r).symm,
   fun j _ => ⟨(start_setResource tasks idx r j).symm, (stop_setResource tasks idx r j).symm⟩⟩

theorem graphMatches_setResource (G : List (List Nat)) (tasks : List SchedTask)
    (idx : Nat) (r : Option Nat) (h : graphMatches G tasks) :
    graphMatches G (setResource tasks idx r) := by
  intro i c
  rw [length_setResource, overlaps_setResource]
  exact h i c

theorem build_conflict_graph_matches (tasks : List SchedTask) :
    graphMatches (build_conflict_graph tasks) tasks := by
  intro i c
  unfold build_conflict_graph
  rw [list_getD_map_range]
  by_cases hi : i < tasks.length
  · rw [if_pos hi]
    simp only [List.mem_filter, List.mem_range, Bool.and_eq_true, bne_iff_ne]
    constructor
    · rintro ⟨hc, hne, hov⟩
      exact ⟨hi, hc, hne, hov⟩
    · rintro ⟨_, hc, hne, hov⟩
      exact ⟨hc, hne, hov⟩
  · rw [if_neg hi]
    simp [hi]

theorem is_valid_assignment_spec (G : List (List Nat)) (tasks : List SchedTask)
    (idx r : Nat) (h : is_valid_assignment G tasks idx r = true) :
    ∀ c ∈ G.getD idx [], (tasks.getD c default).resource ≠ some r := by
  intro c hc
  have := List.all_eq_true.mp h c hc
  simpa using this

/-! #### Q2 restoration (exactly one undo per do) -/

theorem tryResources_false_restores
    (solveF : List SchedTask → Bool × List SchedTask)
    (G : List (List Nat)) (idx : Nat)
    (hF : ∀ t, allNoneFrom (idx + 1) t → (solveF t).1 = false → (solveF t).2 = t) :
    ∀ (rs : List Nat) (tasks : List SchedTask), allNoneFrom idx tasks →
      (tryResources solveF G idx rs tasks).1 = false →
      (tryResources solveF G idx rs tasks).2 = tasks := by
  intro rs
  induction rs with
  | nil => intro tasks _ _; rfl
  | cons r rs ih =>
    intro tasks hnone hfalse
    by_cases hv : is_valid_assignment G tasks idx r
    · simp only [tryResources, hv, if_true] at hfalse ⊢
      rcases hres : solveF (setResource tasks idx (some r)) with ⟨b, t'⟩
      cases b with
      | true => simp [hres] at hfalse
      | false =>
        have han : allNoneFrom (idx + 1) (setResource tasks idx (some r)) := by
          intro j hj hjl
          rw [length_setResource] at hjl
          rw [resource_setResource_ne tasks idx (some r) j (by omega)]
          exact hnone j (by omega) hjl
        have ht' : t' = setResource tasks idx (some r) := by
          have := hF (setResource tasks idx (some r)) han
          rw [hres] at this; exact this rfl
        have hres0 : (tasks.getD idx default).resource = none := by
          by_cases hi : idx < tasks.length
          · exact hnone idx le_rfl hi
          · rw [list_getD_of_length_le _ _ _ (le_of_not_lt hi)]; rfl
        have hrestore : setResource t' idx none = tasks := by
          rw [ht']; exact setResource_restore tasks idx r hres0
        simp only [hres] at hfalse ⊢
        rw [hrestore] at hfalse ⊢
        exact ih tasks hnone hfalse
    · simp only [tryResources, hv, if_false] at hfalse ⊢
      exact ih tasks hnone hfalse

theorem solve_backtracking_false_restores (G : List (List Nat)) (K : Nat) :
    ∀ (fuel idx : Nat) (tasks : List SchedTask), allNoneFrom idx tasks →
      (solve_backtracking G K fuel idx tasks).1 = false →
      (solve_backtracking G K fuel idx tasks).2 = tasks := by
  intro fuel
  induction fuel with
  | zero => intro idx tasks _ _; rfl
  | succ fuel ih =>
    intro idx tasks hnone hfalse
    simp only [solve_backtracking] at hfalse ⊢
    by_cases hlen : idx = tasks.length
    · rw [if_pos hlen] at hfalse; simp at hfalse
    · rw [if_neg hlen] at hfalse ⊢
      exact tryResources_false_restores _ G idx
        (fun t hn hf => ih (idx + 1) t hn hf) _ tasks hnone hfalse

/-! #### Q2 soundness of successful assignments -/

theorem schedInv_assign
    (G : List (List Nat)) (K idx : Nat) (tasks : List SchedTask) (r : Nat)
    (hgm : graphMatches G tasks)
    (hbelow : assignedBelow K idx tasks)
    (hnone : allNoneFrom idx tasks)
    (hns : noSharedResource tasks)
    (hidx : idx < tasks.length)
    (hr1 : 1 ≤ r) (hrK : r ≤ K)
    (hvalid : is_valid_assignment G tasks idx r = true) :
    assignedBelow K (idx + 1) (setResource tasks idx (some r)) ∧
    allNoneFrom (idx + 1) (setResource tasks idx (some r)) ∧
    noSharedResource (setResource tasks idx (some r)) := by
  refine ⟨?_, ?_, ?_⟩
  · intro j hj hjl
    rw [length_setResource] at hjl
    by_cases hji : j = idx
    · subst hji
      exact ⟨r, hr1, hrK, by rw [resource_setResource_self tasks j (some r) hidx]⟩
    · obtain ⟨r', h1, h2, h3⟩ := hbelow j (by omega) hjl
      exact ⟨r', h1, h2, by rw [resource_setResource_ne tasks idx (some r) j hji]; exact h3⟩
  · intro j hj hjl
    rw [length_setResource] at hjl
    rw [resource_setResource_ne tasks idx (some r) j (by omega)]
    exact hnone j (by omega) hjl
  · rintro i j hi hj hij hov ⟨rr, hri, hrj⟩
    rw [length_setResource] at hi hj
    rw [overlaps_setResource] at hov
    by_cases hiidx : i = idx
    · subst hiidx
      have hjidx : j ≠ i := fun h => hij h.symm
      rw [resource_setResource_self tasks i (some r) hidx] at hri
      rw [resource_setResource_ne tasks i (some r) j hjidx] at hrj
      have hrr : rr = r := by injection hri with h; omega
      subst hrr
      have hmem : j ∈ G.getD i [] := (hgm i j).mpr ⟨hi, hj, hjidx, hov⟩
      exact is_valid_assignment_spec G tasks i rr hvalid j hmem hrj
    · by_cases hjidx : j = idx
      · subst hjidx
        rw [resource_setResource_self tasks j (some r) hidx] at hrj
        rw [resource_setResource_ne tasks j (some r) i hiidx] at hri
        have hrr : rr = r := by injection hrj with h; omega
        subst hrr
        have hov' : (tasks.getD j default).overlaps (tasks.getD i default) = true := by
          rw [overlaps_comm]; exact hov
        have hmem : i ∈ G.getD j [] := (hgm j i).mpr ⟨hj, hi, hiidx, hov'⟩
        exact is_valid_assignment_spec G tasks j rr hvalid i hmem hri
      · rw [resource_setResource_ne tasks idx (some r) i hiidx] at hri
        rw [resource_setResource_ne tasks idx (some r) j hjidx] at hrj
        exact hns i j hi hj hij hov ⟨rr, hri, hrj⟩

theorem schedPost_pre_setResource (K : Nat) (tasks : List SchedTask) (idx : Nat)
    (r : Option Nat) (out : List SchedTask)
    (h : schedPost K (setResource tasks idx r) out) : schedPost K tasks out := by
  obtain ⟨hl, ha, hn, hs⟩ := h
  exact ⟨by rw [hl, length_setResource], ha, hn,
    sameIntervals_trans (sameIntervals_setResource tasks idx r) hs⟩

theorem tryResources_sound
    (K : Nat) (solveF : List SchedTask → Bool × List SchedTask)
    (G : List (List Nat)) (idx : Nat)
    (hF : ∀ t, idx + 1 ≤ t.length → graphMatches G t →
      assignedBelow K (idx + 1) t → allNoneFrom (idx + 1) t → noSharedResource t →
      (solveF t).1 = true → schedPost K t (solveF t).2)
    (hFrest : ∀ t, allNoneFrom (idx + 1) t → (solveF t).1 = false → (solveF t).2 = t) :
    ∀ (rs : List Nat) (tasks : List SchedTask),
      (∀ r ∈ rs, 1 ≤ r ∧ r ≤ K) → idx < tasks.length →
      graphMatches G tasks → assignedBelow K idx tasks →
      allNoneFrom idx tasks → noSharedResource tasks →
      (tryResources solveF G idx rs tasks).1 = true →
      schedPost K tasks (tryResources solveF G idx rs tasks).2 := by
  intro rs
  induction rs with
  | nil => intro tasks _ _ _ _ _ _ htrue; simp [tryResources] at htrue
  | cons r rs ih =>
    intro tasks hrs hidx hgm hbelow hnone hns htrue
    by_cases hv : is_valid_assignment G tasks idx r
    · simp only [tryResources, hv, if_true] at htrue ⊢
      rcases hres : solveF (setResource tasks idx (some r)) with ⟨b, t'⟩
      obtain ⟨hb1, hbK⟩ := hrs r (List.mem_cons_self r rs)
      obtain ⟨hbelow', hnone', hns'⟩ :=
        schedInv_assign G K idx tasks r hgm hbelow hnone hns hidx hb1 hbK hv
      cases b with
      | true =>
        simp only [hres] at htrue ⊢
        have hpost := hF (setResource tasks idx (some r))
          (by rw [length_setResource]; omega)
          (graphMatches_setResource G tasks idx (some r) hgm) hbelow' hnone' hns'
          (by rw [hres])
        rw [hres] at hpost
        exact schedPost_pre_setResource K tasks idx (some r) t' hpost
      | false =>
        have ht' : t' = setResource tasks idx (some r) := by
          have := hFrest (setResource tasks idx (some r)) hnone'
          rw [hres] at this; exact this rfl
        have hres0 : (tasks.getD idx default).resource = none :=
          hnone idx le_rfl hidx
        have hrestore : setResource t' idx none = tasks := by
          rw [ht']; exact setResource_restore tasks idx r hres0
        simp only [hres] at htrue ⊢
        rw [hrestore] at htrue ⊢
        exact ih tasks (fun x hx => hrs x (List.mem_cons_of_mem r hx))
          hidx hgm hbelow hnone hns htrue
    · simp only [tryResources, hv, if_false] at htrue ⊢
      exact ih tasks (fun x hx => hrs x (List.mem_cons_of_mem r hx))
        hidx hgm hbelow hnone hns htrue

theorem solve_backtracking_sound (G : List (List Nat)) (K : Nat) :
    ∀ (fuel idx : Nat) (tasks : List SchedTask),
      idx ≤ tasks.length → graphMatches G tasks →
      assignedBelow K idx tasks → allNoneFrom idx tasks → noSharedResource tasks →
      (solve_backtracking G K fuel idx tasks).1 = true →
      schedPost K tasks (solve_backtracking G K fuel idx tasks).2 := by
  intro fuel
  induction fuel with
  | zero => intro idx tasks _ _ _ _ _ htrue; simp [solve_backtracking] at htrue
  | succ fuel ih =>
    intro idx tasks hle hgm hbelow hnone hns htrue
    simp only [solve_backtracking] at htrue ⊢
    by_cases hlen : idx = tasks.length
    · rw [if_pos hlen] at htrue ⊢
      refine ⟨rfl, ?_, hns, sameIntervals_refl tasks⟩
      intro j hj
      have hj' : j < tasks.length := hj
      exact hbelow j (by omega) hj'
    · rw [if_neg hlen] at htrue ⊢
      have hidx : idx < tasks.length := by omega
      exact tryResources_sound K _ G idx
        (fun t hlt hgm' hb' hn' hns' ht => ih (idx + 1) t hlt hgm' hb' hn' hns' ht)
        (fun t hn' hf => solve_backtracking_false_restores G K fuel (idx + 1) t hn' hf)
        (List.range' 1 K) tasks
        (fun x hx => by
          have := List.mem_range'_1.mp hx
          omega)
        hidx hgm hbelow hnone hns htrue

/-! #### Q2 top-level facts about `solve` -/

theorem allNoneFrom_zero (tasks : List SchedTask)
    (hnone : ∀ t ∈ tasks, t.resource = none) : allNoneFrom 0 tasks :=
  fun j _ hj => hnone _ (list_getD_mem tasks j default hj)

theorem noSharedResource_of_allNone (tasks : List SchedTask)
    (hnone : ∀ t ∈ tasks, t.resource = none) : noSharedResource tasks := by
  rintro i j hi hj hij hov ⟨r, hri, hrj⟩
  rw [hnone _ (list_getD_mem tasks i default hi)] at hri
  exact Option.noConfusion hri

theorem solve_post (tasks : List SchedTask) (K : Nat)
    (hnone : ∀ t ∈ tasks, t.resource = none)
    (htrue : (solve tasks K).1 = true) :
    schedPost K tasks (solve tasks K).2 :=
  solve_backtracking_sound (build_conflict_graph tasks) K (tasks.length + 1) 0 tasks
    (Nat.zero_le _) (build_conflict_graph_matches tasks)
    (fun j hj _ => absurd hj (Nat.not_lt_zero j))
    (allNoneFrom_zero tasks hnone)
    (noSharedResource_of_allNone tasks hnone) htrue

theorem solve_false_restores (tasks : List SchedTask) (K : Nat)
    (hnone : ∀ t ∈ tasks, t.resource = none)
    (hfalse : (solve tasks K).1 = false) :
    (solve tasks K).2 = tasks :=
  solve_backtracking_false_restores (build_conflict_graph tasks) K
    (tasks.length + 1) 0 tasks (allNoneFrom_zero tasks hnone) hfalse

/-! #### C2 and C7 -/

/-- C2: if `solve` returns true, every task holds a resource in `1..K`,
and any two distinct tasks whose intervals overlap (i.e. any edge of the
conflict graph) hold different resources. -/
theorem solve_assignment_sound (tasks : List SchedTask) (K : Nat)
    (hnone : ∀ t ∈ tasks, t.resource = none)
    (htrue : (solve tasks K).1 = true) :
    (solve tasks K).2.length = tasks.length ∧
    (∀ j, j < (solve tasks K).2.length →
      ∃ r, 1 ≤ r ∧ r ≤ K ∧ (((solve tasks K).2.getD j default).resource = some r)) ∧
    (∀ i j, i < (solve tasks K).2.length → j < (solve tasks K).2.length → i ≠ j →
      ((solve tasks K).2.getD i default).overlaps ((solve tasks K).2.getD j default) = true →
      ((solve tasks K).2.getD i default).resource ≠
        ((solve tasks K).2.getD j default).resource) := by
  obtain ⟨hl, ha, hns, _⟩ := solve_post tasks K hnone htrue
  refine ⟨hl, ha, ?_⟩
  intro i j hi hj hij hov heq
  obtain ⟨ri, _, _, hri⟩ := ha i hi
  obtain ⟨rj, _, _, hrj⟩ := ha j hj
  apply hns i j hi hj hij hov
  refine ⟨ri, hri, ?_⟩
  rw [← heq, hri]

/-- C2 witness at the concrete three-task instance with `K = 3`. -/
theorem solve_assignment_sound_witness :
    (solve tasksC6 3).2.length = tasksC6.length ∧
    ∃ r, 1 ≤ r ∧ r ≤ 3 ∧ (((solve tasksC6 3).2.getD 0 default).resource = some r) :=
  ⟨(solve_assignment_sound tasksC6 3 (by decide) (by decide)).1,
   (solve_assignment_sound tasksC6 3 (by decide) (by decide)).2.1 0 (by decide)⟩

/-- C7: starting from all-unassigned tasks, on success every task's
resource field is populated; on failure every assignment has been undone,
so the task list is exactly the input and every resource field is null. -/
theorem solve_populates_or_resets (tasks : List SchedTask) (K : Nat)
    (hnone : ∀ t ∈ tasks, t.resource = none) :
    ((solve tasks K).1 = true → ∀ j, j < (solve tasks K).2.length →
      ((solve tasks K).2.getD j default).resource.isSome = true) ∧
    ((solve tasks K).1 = false → (solve tasks K).2 = tasks ∧
      ∀ t ∈ (solve tasks K).2, t.resource = none) := by
  constructor
  · intro htrue j hj
    obtain ⟨_, ha, _, _⟩ := solve_post tasks K hnone htrue
    obtain ⟨r, _, _, hr⟩ := ha j hj
    rw [hr]; rfl
  · intro hfalse
    have hrest := solve_false_restores tasks K hnone hfalse
    exact ⟨hrest, by rw [hrest]; exact hnone⟩

/-- C7 witness: the unsatisfiable instance (`K = 2`) leaves all three
tasks unassigned, exactly as before the call. -/
theorem solve_populates_or_resets_witness :
    (solve tasksC6 2).2 = tasksC6 ∧ ∀ t ∈ (solve tasksC6 2).2, t.resource = none :=
  (solve_populates_or_resets tasksC6 2 (by decide)).2 (by decide)

/-! ### Q3: shopping combinations (`Item` / `ShoppingSolver` in `Q3.py`).
Prices and the budget are Python numbers; they are modelled as exact
rationals. -/

/-- `Item`: name, unit price, and purchase limit (`0` = unlimited). -/
structure Item where
  name : String
  price : ℚ
  max_quantity : Nat
deriving DecidableEq

instance : Inhabited Item := ⟨⟨"", 0, 0⟩⟩

/-- Python `int(q)` on a number: truncation toward zero. -/
def pyInt (q : ℚ) : Int :=
  if q < 0 then -((-q).num.fdiv ((-q).den : Int)) else q.num.fdiv (q.den : Int)

/-- The per-item quantity cap computed by both search methods:
`item.max_quantity if item.max_quantity > 0 else int(self.budget / item.price) + 1`. -/
def effMax (budget : ℚ) (it : Item) : Int :=
  if 0 < it.max_quantity then (it.max_quantity : Int)
  else pyInt (budget / it.price) + 1

/-- A recorded combination: `(item_name, qty, qty * price)` entries. -/
abbrev Combination := List (String × Nat × ℚ)

/-- A recorded solution: `(combination, total_cost)`. -/
abbrev PurchaseSol := Combination × ℚ

/-- The `for qty in range(max_qty + 1)` loop of `solve_all_combinations`:
compute the candidate cost, `break` once it exceeds the budget, otherwise
push the entry (for `qty > 0`), recurse via `nextF`, and pop. -/
def qtyLoopAll (nextF : Combination → ℚ → Nat → List PurchaseSol → List PurchaseSol)
    (budget : ℚ) (item : Item) :
    List Nat → Combination → ℚ → Nat → List PurchaseSol → List PurchaseSol
  | [], _, _, _, acc => acc
  | q :: qs, combo, cost, cnt, acc =>
    if budget < cost + (q : ℚ) * item.price then acc
    else
      qtyLoopAll nextF budget item qs combo cost cnt
        (nextF (if 0 < q then combo ++ [(item.name, q, (q : ℚ) * item.price)] else combo)
          (cost + (q : ℚ) * item.price) (cnt + q) acc)

/-- `ShoppingSolver.solve_all_combinations`, threading `self.solutions`
as an accumulator. -/
def solve_all_combinations (items : List Item) (budget : ℚ) (min_items : Nat) :
    Nat → Nat → Combination → ℚ → Nat → List PurchaseSol → List PurchaseSol
  | 0, _, _, _, _, acc => acc
  | fuel + 1, idx, combo, cost, cnt, acc =>
    if idx = items.length then
      if min_items ≤ cnt ∧ cost ≤ budget then acc ++ [(combo, cost)] else acc
    else
      qtyLoopAll (solve_all_combinations items budget min_items fuel (idx + 1))
        budget (items.getD idx default)
        (List.range ((effMax budget (items.getD idx default) + 1).toNat))
        combo cost cnt acc

/-- `ShoppingSolver.find_all_solutions`: reset `self.solutions` and search. -/
def find_all_solutions (items : List Item) (budget : ℚ) (min_items : Nat) :
    List PurchaseSol :=
  solve_all_combinations items budget min_items (items.length + 1) 0 [] 0 0 []

/-- The quantity loop of `solve_first_combination`: identical to
`qtyLoopAll` but short-circuits on the first recursive success. -/
def qtyLoopFirst
    (nextF : Combination → ℚ → Nat → List PurchaseSol → Bool × List PurchaseSol)
    (budget : ℚ) (item : Item) :
    List Nat → Combination → ℚ → Nat → List PurchaseSol → Bool × List PurchaseSol
  | [], _, _, _, acc => (false, acc)
  | q :: qs, combo, cost, cnt, acc =>
    if budget < cost + (q : ℚ) * item.price then (false, acc)
    else
      match nextF (if 0 < q then combo ++ [(item.name, q, (q : ℚ) * item.price)] else combo)
          (cost + (q : ℚ) * item.price) (cnt + q) acc with
      | (true, acc') => (true, acc')
      | (false, acc') => qtyLoopFirst nextF budget item qs combo cost cnt acc'

/-- `ShoppingSolver.solve_first_combination`. -/
def solve_first_combination (items : List Item) (budget : ℚ) (min_items : Nat) :
    Nat → Nat → Combination → ℚ → Nat → List PurchaseSol → Bool × List PurchaseSol
  | 0, _, _, _, _, acc => (false, acc)
  | fuel + 1, idx, combo, cost, cnt, acc =>
    if idx = items.length then
      if min_items ≤ cnt ∧ cost ≤ budget then (true, acc ++ [(combo, cost)])
      else (false, acc)
    else
      qtyLoopFirst (solve_first_combination items budget min_items fuel (idx + 1))
        budget (items.getD idx default)
        (List.range ((effMax budget (items.getD idx default) + 1).toNat))
        combo cost cnt acc

/-- `ShoppingSolver.find_one_solution`:
`self.solutions[0] if self.solutions else None`. -/
def find_one_solution (items : List Item) (budget : ℚ) (min_items : Nat) :
    Option PurchaseSol :=
  (solve_first_combination items budget min_items (items.length + 1) 0 [] 0 0 []).2.head?

/-! #### C3: soundness of recorded combinations -/

/-- The quantity vector `qs` lies in the per-item domains tried by the
search: each `qs i` is drawn from `range(effMax + 1)` for item `i`. -/
def qsDom (budget : ℚ) : List Item → List Nat → Prop
  | it :: its, q :: qs =>
    q < ((effMax budget it + 1).toNat) ∧ qsDom budget its qs
  | [], [] => True
  | _, _ => False

/-- Total cost of a quantity vector. -/
def costOf : List Item → List Nat → ℚ
  | it :: its, q :: qs => (q : ℚ) * it.price + costOf its qs
  | _, _ => 0

/-- The combination the search builds for a quantity vector: one entry
per item with positive quantity, in item order. -/
def comboOf : List Item → List Nat → Combination
  | it :: its, q :: qs =>
    (if 0 < q then [(it.name, q, (q : ℚ) * it.price)] else []) ++ comboOf its qs
  | _, _ => []

theorem qsDom_length (budget : ℚ) :
    ∀ (its : List Item) (qs : List Nat), qsDom budget its qs → qs.length = its.length := by
  intro its
  induction its with
  | nil => intro qs h; cases qs with
    | nil => rfl
    | cons q qs => exact absurd h (by simp [qsDom])
  | cons it its ih =>
    intro qs h
    cases qs with
    | nil => exact absurd h (by simp [qsDom])
    | cons q qs =>
      obtain ⟨_, htail⟩ := h
      simpa using ih qs htail

theorem qsDom_le_effMax (budget : ℚ) :
    ∀ (its : List Item) (qs : List Nat), qsDom budget its qs →
      ∀ i, i < its.length → ((qs.getD i 0 : Int) ≤ effMax budget (its.getD i default)) := by
  intro its
  induction its with
  | nil => intro qs _ i hi; simp at hi
  | cons it its ih =>
    intro qs h i hi
    cases qs with
    | nil => exact absurd h (by simp [qsDom])
    | cons q qs =>
      obtain ⟨hq, htail⟩ := h
      cases i with
      | zero =>
        show (q : Int) ≤ effMax budget it
        omega
      | succ i =>
        show ((qs.getD i 0 : Int) ≤ effMax budget (its.getD i default))
        exact ih qs htail i (by simpa using hi)

theorem qtyLoopAll_mem (budget : ℚ) (min_items : Nat)
    (item : Item) (rest : List Item)
    (nextF : Combination → ℚ → Nat → List PurchaseSol → List PurchaseSol)
    (hnext : ∀ (combo : Combination) (cost : ℚ) (cnt : Nat) (acc : List PurchaseSol)
      (s : PurchaseSol), s ∈ nextF combo cost cnt acc →
      s ∈ acc ∨ ∃ qs : List Nat, qsDom budget rest qs ∧
        s.2 = cost + costOf rest qs ∧ s.1 = combo ++ comboOf rest qs ∧
        min_items ≤ cnt + qs.sum ∧ s.2 ≤ budget) :
    ∀ (qlist : List Nat), (∀ q ∈ qlist, q < (effMax budget item + 1).toNat) →
      ∀ (combo : Combination) (cost : ℚ) (cnt : Nat) (acc : List PurchaseSol)
        (s : PurchaseSol),
        s ∈ qtyLoopAll nextF budget item qlist combo cost cnt acc →
        s ∈ acc ∨ ∃ qs : List Nat, qsDom budget (item :: rest) qs ∧
          s.2 = cost + costOf (item :: rest) qs ∧
          s.1 = combo ++ comboOf (item :: rest) qs ∧
          min_items ≤ cnt + qs.sum ∧ s.2 ≤ budget := by
  intro qlist
  induction qlist with
  | nil => intro _ _ _ _ _ _ hs; exact Or.inl hs
  | cons q qs ih =>
    intro hql combo cost cnt acc s hs
    simp only [qtyLoopAll] at hs
    by_cases hbreak : budget < cost + (q : ℚ) * item.price
    · rw [if_pos hbreak] at hs; exact Or.inl hs
    · rw [if_neg hbreak] at hs
      rcases ih (fun x hx => hql x (List.mem_cons_of_mem q hx))
          combo cost cnt _ s hs with h | ⟨qs', hdom, hcost, hcombo, hsum, hble⟩
      · rcases hnext _ _ _ _ s h with h' | ⟨qs', hdom, hcost, hcombo, hsum, hble⟩
        · exact Or.inl h'
        · right
          refine ⟨q :: qs', ⟨hql q (List.mem_cons_self q qs), hdom⟩, ?_, ?_, ?_, hble⟩
          · rw [hcost]
            show _ = cost + ((q : ℚ) * item.price + costOf rest qs')
            ring
          · rw [hcombo]
            show _ = combo ++ ((if 0 < q then [(item.name, q, (q : ℚ) * item.price)] else []) ++
              comboOf rest qs')
            by_cases hq : 0 < q
            · rw [if_pos hq, if_pos hq, List.append_assoc]
            · rw [if_neg hq, if_neg hq]; simp
          · show min_items ≤ cnt + (q + qs'.sum)
            omega
      · exact Or.inr ⟨qs', hdom, hcost, hcombo, hsum, hble⟩

theorem solve_all_mem (items : List Item) (budget : ℚ) (min_items : Nat) :
    ∀ (fuel idx : Nat), idx ≤ items.length →
      ∀ (combo : Combination) (cost : ℚ) (cnt : Nat)
      (acc : List PurchaseSol) (s : PurchaseSol),
      s ∈ solve_all_combinations items budget min_items fuel idx combo cost cnt acc →
      s ∈ acc ∨ ∃ qs : List Nat, qsDom budget (items.drop idx) qs ∧
        s.2 = cost + costOf (items.drop idx) qs ∧
        s.1 = combo ++ comboOf (items.drop idx) qs ∧
        min_items ≤ cnt + qs.sum ∧ s.2 ≤ budget := by
  intro fuel
  induction fuel with
  | zero => intro idx _ combo cost cnt acc s hs; exact Or.inl hs
  | succ fuel ih =>
    intro idx hle combo cost cnt acc s hs
    simp only [solve_all_combinations] at hs
    by_cases hlen : idx = items.length
    · rw [if_pos hlen] at hs
      by_cases hcond : min_items ≤ cnt ∧ cost ≤ budget
      · rw [if_pos hcond] at hs
        rcases List.mem_append.mp hs with h | h
        · exact Or.inl h
        · right
          have hsep : s = (combo, cost) := by simpa using h
          subst hsep
          refine ⟨[], ?_, ?_, ?_, ?_, hcond.2⟩
          · rw [hlen, List.drop_length]; trivial
          · rw [hlen, List.drop_length]; show cost = cost + costOf [] []; simp [costOf]
          · rw [hlen, List.drop_length]; show combo = combo ++ comboOf [] []; simp [comboOf]
          · simpa using hcond.1
      · rw [if_neg hcond] at hs; exact Or.inl hs
    · rw [if_neg hlen] at hs
      have hidx : idx < items.length := by omega
      have hdrop : items.drop idx = items.getD idx default :: items.drop (idx + 1) := by
        rw [List.getD_eq_getElem _ _ hidx]
        exact List.drop_eq_getElem_cons hidx
      rw [hdrop]
      exact qtyLoopAll_mem budget min_items (items.getD idx default)
        (items.drop (idx + 1)) _
        (fun c co cn a s2 hs2 => ih (idx + 1) (by omega) c co cn a s2 hs2)
        _ (fun q hq => List.mem_range.mp hq) combo cost cnt acc s hs

/-- C3: every combination recorded by `find_all_solutions` comes from a
quantity vector in the per-item domains: its total cost is within the
budget, its total quantity meets `min_items`, and each quantity lies in
`[0, effective_max_quantity]` for its item. -/
theorem find_all_solutions_sound (items : List Item) (budget : ℚ) (min_items : Nat)
    (hp : ∀ it ∈ items, 0 < it.price) (hb : 0 < budget) (hm : 0 < min_items) :
    ∀ s ∈ find_all_solutions items budget min_items,
      ∃ qs : List Nat,
        qsDom budget items qs ∧
        qs.length = items.length ∧
        (∀ i, i < items.length →
          ((qs.getD i 0 : Int) ≤ effMax budget (items.getD i default))) ∧
        s.2 = costOf items qs ∧ s.2 ≤ budget ∧
        min_items ≤ qs.sum ∧ s.1 = comboOf items qs := by
  intro s hs
  rcases solve_all_mem items budget min_items (items.length + 1) 0 (Nat.zero_le _)
      [] 0 0 [] s hs with h | ⟨qs, hdom, hcost, hcombo, hsum, hble⟩
  · simp at h
  · rw [List.drop_zero] at hdom hcost hcombo
    exact ⟨qs, hdom, qsDom_length budget items qs hdom,
      qsDom_le_effMax budget items qs hdom,
      by rw [hcost]; ring, hble, by simpa using hsum, by simpa using hcombo⟩

/-- The small fixture used by the Q3 witnesses: two positively priced
items, one unlimited and one capped. -/
def itemsW : List Item := [⟨"a", 2, 0⟩, ⟨"b", 3, 2⟩]

theorem find_all_solutions_sound_witness :
    (∀ it ∈ itemsW, 0 < it.price) ∧
    ∀ s ∈ find_all_solutions itemsW 6 1,
      ∃ qs : List Nat,
        qsDom 6 itemsW qs ∧
        qs.length = itemsW.length ∧
        (∀ i, i < itemsW.length →
          ((qs.getD i 0 : Int) ≤ effMax 6 (itemsW.getD i default))) ∧
        s.2 = costOf itemsW qs ∧ s.2 ≤ 6 ∧
        1 ≤ qs.sum ∧ s.1 = comboOf itemsW qs :=
  ⟨by decide, find_all_solutions_sound itemsW 6 1 (by decide) (by decide) (by decide)⟩

/-! #### C4: the pruning `break` loses no combination -/

/-- The unpruned quantity loop: try every quantity in the domain with no
`break`, deferring both constraint checks to the end of the item list. -/
def bruteQtyLoop (nextF : Combination → ℚ → Nat → List PurchaseSol → List PurchaseSol)
    (item : Item) :
    List Nat → Combination → ℚ → Nat → List PurchaseSol → List PurchaseSol
  | [], _, _, _, acc => acc
  | q :: qs, combo, cost, cnt, acc =>
    bruteQtyLoop nextF item qs combo cost cnt
      (nextF (if 0 < q then combo ++ [(item.name, q, (q : ℚ) * item.price)] else combo)
        (cost + (q : ℚ) * item.price) (cnt + q) acc)

/-- Modelled from the spec: brute-force enumeration over all quantity
vectors in the per-item domains, recording exactly those satisfying the
budget and minimum-quantity constraints (checked only at the base case). -/
def brute_all_combinations (items : List Item) (budget : ℚ) (min_items : Nat) :
    Nat → Nat → Combination → ℚ → Nat → List PurchaseSol → List PurchaseSol
  | 0, _, _, _, _, acc => acc
  | fuel + 1, idx, combo, cost, cnt, acc =>
    if idx = items.length then
      if min_items ≤ cnt ∧ cost ≤ budget then acc ++ [(combo, cost)] else acc
    else
      bruteQtyLoop (brute_all_combinations items budget min_items fuel (idx + 1))
        (items.getD idx default)
        (List.range ((effMax budget (items.getD idx default) + 1).toNat))
        combo cost cnt acc

def brute_force_all (items : List Item) (budget : ℚ) (min_items : Nat) :
    List PurchaseSol :=
  brute_all_combinations items budget min_items (items.length + 1) 0 [] 0 0 []

theorem getD_price_nonneg (items : List Item)
    (hp : ∀ it ∈ items, 0 ≤ it.price) (idx : Nat) :
    0 ≤ (items.getD idx default).price := by
  by_cases hi : idx < items.length
  · exact hp _ (list_getD_mem items idx default hi)
  · rw [list_getD_of_length_le _ _ _ (le_of_not_lt hi)]
    exact le_refl 0

theorem bruteQtyLoop_dead (budget : ℚ) (item : Item) (hpr : 0 ≤ item.price)
    (nextF : Combination → ℚ → Nat → List PurchaseSol → List PurchaseSol)
    (hnext : ∀ (combo : Combination) (cost : ℚ) (cnt : Nat) (acc : List PurchaseSol),
      budget < cost → nextF combo cost cnt acc = acc) :
    ∀ (qlist : List Nat) (combo : Combination) (cost : ℚ) (cnt : Nat)
      (acc : List PurchaseSol), budget < cost →
      bruteQtyLoop nextF item qlist combo cost cnt acc = acc := by
  intro qlist
  induction qlist with
  | nil => intro _ _ _ _ _; rfl
  | cons q qs ih =>
    intro combo cost cnt acc hover
    simp only [bruteQtyLoop]
    rw [hnext _ _ _ _ (lt_of_lt_of_le hover
      (le_add_of_nonneg_right (mul_nonneg (Nat.cast_nonneg q) hpr)))]
    exact ih _ _ _ _ hover

theorem brute_all_dead (items : List Item) (budget : ℚ) (min_items : Nat)
    (hp : ∀ it ∈ items, 0 ≤ it.price) :
    ∀ (fuel idx : Nat) (combo : Combination) (cost : ℚ) (cnt : Nat)
      (acc : List PurchaseSol), budget < cost →
      brute_all_combinations items budget min_items fuel idx combo cost cnt acc = acc := by
  intro fuel
  induction fuel with
  | zero => intro _ _ _ _ _ _; rfl
  | succ fuel ih =>
    intro idx combo cost cnt acc hover
    simp only [brute_all_combinations]
    by_cases hlen : idx = items.length
    · rw [if_pos hlen, if_neg (fun h => absurd h.2 (not_le.mpr hover))]
    · rw [if_neg hlen]
      exact bruteQtyLoop_dead budget _ (getD_price_nonneg items hp idx) _
        (fun c co cn a h => ih (idx + 1) c co cn a h) _ combo cost cnt acc hover

theorem bruteQtyLoop_each_dead (budget : ℚ) (item : Item)
    (nextF : Combination → ℚ → Nat → List PurchaseSol → List PurchaseSol)
    (hnext : ∀ (combo : Combination) (cost : ℚ) (cnt : Nat) (acc : List PurchaseSol),
      budget < cost → nextF combo cost cnt acc = acc) :
    ∀ (qlist : List Nat) (combo : Combination) (cost : ℚ) (cnt : Nat)
      (acc : List PurchaseSol),
      (∀ q' ∈ qlist, budget < cost + (q' : ℚ) * item.price) →
      bruteQtyLoop nextF item qlist combo cost cnt acc = acc := by
  intro qlist
  induction qlist with
  | nil => intro _ _ _ _ _; rfl
  | cons q qs ih =>
    intro combo cost cnt acc hall
    simp only [bruteQtyLoop]
    rw [hnext _ _ _ _ (hall q (List.mem_cons_self q qs))]
    exact ih _ _ _ _ (fun q' hq' => hall q' (List.mem_cons_of_mem q hq'))

theorem qtyLoopAll_eq_brute (budget : ℚ) (item : Item) (hpr : 0 ≤ item.price)
    (nextS nextB : Combination → ℚ → Nat → List PurchaseSol → List PurchaseSol)
    (hSB : ∀ (combo : Combination) (cost : ℚ) (cnt : Nat) (acc : List PurchaseSol),
      nextS combo cost cnt acc = nextB combo cost cnt acc)
    (hdead : ∀ (combo : Combination) (cost : ℚ) (cnt : Nat) (acc : List PurchaseSol),
      budget < cost → nextB combo cost cnt acc = acc) :
    ∀ (qlist : List Nat), List.Pairwise (· ≤ ·) qlist →
      ∀ (combo : Combination) (cost : ℚ) (cnt : Nat) (acc : List PurchaseSol),
        qtyLoopAll nextS budget item qlist combo cost cnt acc =
        bruteQtyLoop nextB item qlist combo cost cnt acc := by
  intro qlist
  induction qlist with
  | nil => intro _ _ _ _ _; rfl
  | cons q qs ih =>
    intro hsort combo cost cnt acc
    simp only [qtyLoopAll, bruteQtyLoop]
    by_cases hbreak : budget < cost + (q : ℚ) * item.price
    · rw [if_pos hbreak, hdead _ _ _ _ hbreak]
      refine (bruteQtyLoop_each_dead budget item nextB hdead qs combo cost cnt acc ?_).symm
      intro q' hq'
      have hqq' : q ≤ q' := (List.pairwise_cons.mp hsort).1 q' hq'
      have hmul : (q : ℚ) * item.price ≤ (q' : ℚ) * item.price :=
        mul_le_mul_of_nonneg_right (by exact_mod_cast hqq') hpr
      linarith
    · rw [if_neg hbreak, hSB]
      exact ih (List.pairwise_cons.mp hsort).2 combo cost cnt _

theorem solve_all_eq_brute (items : List Item) (budget : ℚ) (min_items : Nat)
    (hp : ∀ it ∈ items, 0 ≤ it.price) :
    ∀ (fuel idx : Nat) (combo : Combination) (cost : ℚ) (cnt : Nat)
      (acc : List PurchaseSol),
      solve_all_combinations items budget min_items fuel idx combo cost cnt acc =
      brute_all_combinations items budget min_items fuel idx combo cost cnt acc := by
  intro fuel
  induction fuel with
  | zero => intro _ _ _ _ _; rfl
  | succ fuel ih =>
    intro idx combo cost cnt acc
    simp only [solve_all_combinations, brute_all_combinations]
    by_cases hlen : idx = items.length
    · rw [if_pos hlen, if_pos hlen]
    · rw [if_neg hlen, if_neg hlen]
      exact qtyLoopAll_eq_brute budget _ (getD_price_nonneg items hp idx) _ _
        (fun c co cn a => ih (idx + 1) c co cn a)
        (fun c co cn a h => brute_all_dead items budget min_items hp fuel (idx + 1) c co cn a h)
        _ (List.pairwise_lt_range _ |>.imp le_of_lt) combo cost cnt acc

/-- C4: with positive prices, the pruned search (which breaks out of the
quantity loop once the candidate cost exceeds the budget) records exactly
the same combinations, in the same order, as the unpruned brute-force
enumeration over all quantity vectors in the per-item domains. -/
theorem find_all_solutions_eq_brute_force (items : List Item) (budget : ℚ)
    (min_items : Nat) (hp : ∀ it ∈ items, 0 < it.price) :
    find_all_solutions items budget min_items = brute_force_all items budget min_items :=
  solve_all_eq_brute items budget min_items
    (fun it hit => le_of_lt (hp it hit)) (items.length + 1) 0 [] 0 0 []

theorem find_all_solutions_eq_brute_force_witness :
    find_all_solutions itemsW 6 1 = brute_force_all itemsW 6 1 :=
  find_all_solutions_eq_brute_force itemsW 6 1 (by decide)

/-! #### C8: impossible budget -/

theorem qtyLoopAll_overpriced_pos (budget : ℚ) (hb : 0 ≤ budget)
    (item : Item) (hpr : budget < item.price)
    (nextF : Combination → ℚ → Nat → List PurchaseSol → List PurchaseSol)
    (hnext : ∀ acc, nextF [] 0 0 acc = acc) :
    ∀ (qlist : List Nat) (acc : List PurchaseSol),
      qtyLoopAll nextF budget item qlist [] 0 0 acc = acc := by
  intro qlist
  induction qlist with
  | nil => intro acc; rfl
  | cons q qs ih =>
    intro acc
    simp only [qtyLoopAll]
    rcases Nat.eq_zero_or_pos q with hq | hq
    · subst hq
      rw [if_neg (by simp only [Nat.cast_zero, zero_mul, add_zero]; exact not_lt.mpr hb)]
      have harg : nextF (if 0 < 0 then [] ++ [(item.name, 0, ((0 : Nat) : ℚ) * item.price)]
          else []) ((0 : ℚ) + ((0 : Nat) : ℚ) * item.price) (0 + 0) acc = acc := by
        simp only [Nat.cast_zero, zero_mul, add_zero, Nat.add_zero, lt_irrefl, if_false]
        exact hnext acc
      rw [harg]
      exact ih acc
    · have hp0 : 0 < item.price := lt_of_le_of_lt hb hpr
      have hmul : item.price ≤ (q : ℚ) * item.price :=
        le_mul_of_one_le_left (le_of_lt hp0) (by exact_mod_cast hq)
      rw [if_pos (by rw [zero_add]; linarith)]

theorem solve_all_overpriced (items : List Item) (budget : ℚ) (min_items : Nat)
    (hp : ∀ it ∈ items, budget < it.price) (hm : 1 ≤ min_items) :
    ∀ (fuel idx : Nat), idx ≤ items.length → ∀ acc : List PurchaseSol,
      solve_all_combinations items budget min_items fuel idx [] 0 0 acc = acc := by
  intro fuel
  induction fuel with
  | zero => intro _ _ _; rfl
  | succ fuel ih =>
    intro idx hle acc
    simp only [solve_all_combinations]
    by_cases hlen : idx = items.length
    · rw [if_pos hlen, if_neg (fun h => absurd h.1 (by omega))]
    · rw [if_neg hlen]
      have hidx : idx < items.length := by omega
      have hpr : budget < (items.getD idx default).price :=
        hp _ (list_getD_mem items idx default hidx)
      by_cases hb : 0 ≤ budget
      · exact qtyLoopAll_overpriced_pos budget hb _ hpr _
          (fun a => ih (idx + 1) (by omega) a) _ acc
      · rcases hkk : (effMax budget (items.getD idx default) + 1).toNat with _ | k
        · rfl
        · rw [List.range_succ_eq_map]
          simp only [qtyLoopAll]
          rw [if_pos (by simp only [Nat.cast_zero, zero_mul, add_zero]; exact not_le.mp hb)]

theorem qtyLoopFirst_overpriced_pos (budget : ℚ) (hb : 0 ≤ budget)
    (item : Item) (hpr : budget < item.price)
    (nextF : Combination → ℚ → Nat → List PurchaseSol → Bool × List PurchaseSol)
    (hnext : ∀ acc, nextF [] 0 0 acc = (false, acc)) :
    ∀ (qlist : List Nat) (acc : List PurchaseSol),
      qtyLoopFirst nextF budget item qlist [] 0 0 acc = (false, acc) := by
  intro qlist
  induction qlist with
  | nil => intro acc; rfl
  | cons q qs ih =>
    intro acc
    simp only [qtyLoopFirst]
    rcases Nat.eq_zero_or_pos q with hq | hq
    · subst hq
      rw [if_neg (by simp only [Nat.cast_zero, zero_mul, add_zero]; exact not_lt.mpr hb)]
      have harg : nextF (if 0 < 0 then [] ++ [(item.name, 0, ((0 : Nat) : ℚ) * item.price)]
          else []) ((0 : ℚ) + ((0 : Nat) : ℚ) * item.price) (0 + 0) acc = (false, acc) := by
        simp only [Nat.cast_zero, zero_mul, add_zero, Nat.add_zero, lt_irrefl, if_false]
        exact hnext acc
      rw [harg]
      exact ih acc
    · have hp0 : 0 < item.price := lt_of_le_of_lt hb hpr
      have hmul : item.price ≤ (q : ℚ) * item.price :=
        le_mul_of_one_le_left (le_of_lt hp0) (by exact_mod_cast hq)
      rw [if_pos (by rw [zero_add]; linarith)]

theorem solve_first_overpriced (items : List Item) (budget : ℚ) (min_items : Nat)
    (hp : ∀ it ∈ items, budget < it.price) (hm : 1 ≤ min_items) :
    ∀ (fuel idx : Nat), idx ≤ items.length → ∀ acc : List PurchaseSol,
      solve_first_combination items budget min_items fuel idx [] 0 0 acc = (false, acc) := by
  intro fuel
  induction fuel with
  | zero => intro _ _ _; rfl
  | succ fuel ih =>
    intro idx hle acc
    simp only [solve_first_combination]
    by_cases hlen : idx = items.length
    · rw [if_pos hlen, if_neg (fun h => absurd h.1 (by omega))]
    · rw [if_neg hlen]
      have hidx : idx < items.length := by omega
      have hpr : budget < (items.getD idx default).price :=
        hp _ (list_getD_mem items idx default hidx)
      by_cases hb : 0 ≤ budget
      · exact qtyLoopFirst_overpriced_pos budget hb _ hpr _
          (fun a => ih (idx + 1) (by omega) a) _ acc
      · rcases hkk : (effMax budget (items.getD idx default) + 1).toNat with _ | k
        · rfl
        · rw [List.range_succ_eq_map]
          simp only [qtyLoopFirst]
          rw [if_pos (by simp only [Nat.cast_zero, zero_mul, add_zero]; exact not_le.mp hb)]

/-- C8: when every item's individual unit price exceeds the budget and at
least one item is required, `find_all_solutions` returns an empty list and
`find_one_solution` returns `None`. -/
theorem impossible_budget (items : List Item) (budget : ℚ) (min_items : Nat)
    (hp : ∀ it ∈ items, budget < it.price) (hm : 1 ≤ min_items) :
    find_all_solutions items budget min_items = [] ∧
    find_one_solution items budget min_items = none := by
  constructor
  · exact solve_all_overpriced items budget min_items hp hm
      (items.length + 1) 0 (Nat.zero_le _) []
  · unfold find_one_solution
    rw [solve_first_overpriced items budget min_items hp hm
      (items.length + 1) 0 (Nat.zero_le _) []]
    rfl

/-- The impossible-budget fixture: both prices exceed the budget. -/
def itemsP : List Item := [⟨"x", 20, 1⟩, ⟨"y", 25, 1⟩]

theorem impossible_budget_witness :
    find_all_solutions itemsP 15 2 = [] ∧ find_one_solution itemsP 15 2 = none :=
  impossible_budget itemsP 15 2 (by decide) (by decide)

/-! #### C10: the empty combination when `min_items = 0` -/

theorem pyInt_nonneg (q : ℚ) (h : 0 ≤ q) : 0 ≤ pyInt q := by
  unfold pyInt
  rw [if_neg (not_lt.mpr h)]
  exact Int.fdiv_nonneg (Rat.num_nonneg.mpr h) (by exact_mod_cast Nat.zero_le q.den)

theorem effMax_pos (budget : ℚ) (it : Item) (hb : 0 ≤ budget) (hp : 0 < it.price) :
    1 ≤ effMax budget it := by
  unfold effMax
  by_cases hmq : 0 < it.max_quantity
  · rw [if_pos hmq]; exact_mod_cast hmq
  · rw [if_neg hmq]
    have := pyInt_nonneg (budget / it.price) (div_nonneg hb (le_of_lt hp))
    omega

theorem qtyLoopAll_acc_extends
    (nextF : Combination → ℚ → Nat → List PurchaseSol → List PurchaseSol)
    (hnext : ∀ (combo : Combination) (cost : ℚ) (cnt : Nat) (acc : List PurchaseSol),
      ∃ t, nextF combo cost cnt acc = acc ++ t)
    (budget : ℚ) (item : Item) :
    ∀ (qlist : List Nat) (combo : Combination) (cost : ℚ) (cnt : Nat)
      (acc : List PurchaseSol),
      ∃ t, qtyLoopAll nextF budget item qlist combo cost cnt acc = acc ++ t := by
  intro qlist
  induction qlist with
  | nil => intro _ _ _ acc; exact ⟨[], by simp [qtyLoopAll]⟩
  | cons q qs ih =>
    intro combo cost cnt acc
    simp only [qtyLoopAll]
    by_cases hbreak : budget < cost + (q : ℚ) * item.price
    · rw [if_pos hbreak]; exact ⟨[], by simp⟩
    · rw [if_neg hbreak]
      obtain ⟨t1, ht1⟩ := hnext
        (if 0 < q then combo ++ [(item.name, q, (q : ℚ) * item.price)] else combo)
        (cost + (q : ℚ) * item.price) (cnt + q) acc
      obtain ⟨t2, ht2⟩ := ih combo cost cnt
        (nextF (if 0 < q then combo ++ [(item.name, q, (q : ℚ) * item.price)] else combo)
          (cost + (q : ℚ) * item.price) (cnt + q) acc)
      rw [ht2, ht1, List.append_assoc]
      exact ⟨t1 ++ t2, rfl⟩

theorem solve_all_acc_extends (items : List Item) (budget : ℚ) (min_items : Nat) :
    ∀ (fuel idx : Nat) (combo : Combination) (cost : ℚ) (cnt : Nat)
      (acc : List PurchaseSol),
      ∃ t, solve_all_combinations items budget min_items fuel idx combo cost cnt acc =
        acc ++ t := by
  intro fuel
  induction fuel with
  | zero => intro _ _ _ _ acc; exact ⟨[], by simp [solve_all_combinations]⟩
  | succ fuel ih =>
    intro idx combo cost cnt acc
    simp only [solve_all_combinations]
    by_cases hlen : idx = items.length
    · rw [if_pos hlen]
      by_cases hcond : min_items ≤ cnt ∧ cost ≤ budget
      · rw [if_pos hcond]; exact ⟨[(combo, cost)], rfl⟩
      · rw [if_neg hcond]; exact ⟨[], by simp⟩
    · rw [if_neg hlen]
      exact qtyLoopAll_acc_extends _ (fun c co cn a => ih (idx + 1) c co cn a)
        budget _ _ combo cost cnt acc

theorem solve_first_zero_min (items : List Item) (budget : ℚ)
    (hp : ∀ it ∈ items, 0 < it.price) (hb : 0 ≤ budget) :
    ∀ (fuel idx : Nat), items.length - idx < fuel → idx ≤ items.length →
      ∀ acc : List PurchaseSol,
        solve_first_combination items budget 0 fuel idx [] 0 0 acc =
          (true, acc ++ [([], 0)]) := by
  intro fuel
  induction fuel with
  | zero => intro idx h; omega
  | succ fuel ih =>
    intro idx hfuel hle acc
    simp only [solve_first_combination]
    by_cases hlen : idx = items.length
    · rw [if_pos hlen, if_pos ⟨Nat.zero_le 0, hb⟩]
    · rw [if_neg hlen]
      have hidx : idx < items.length := by omega
      have hpr : 0 < (items.getD idx default).price :=
        hp _ (list_getD_mem items idx default hidx)
      have hbound : 1 ≤ (effMax budget (items.getD idx default) + 1).toNat := by
        have := effMax_pos budget (items.getD idx default) hb hpr
        omega
      obtain ⟨k, hk⟩ : ∃ k, (effMax budget (items.getD idx default) + 1).toNat = k + 1 :=
        ⟨(effMax budget (items.getD idx default) + 1).toNat - 1, by omega⟩
      rw [hk, List.range_succ_eq_map]
      simp only [qtyLoopFirst]
      rw [if_neg (by simp only [Nat.cast_zero, zero_mul, add_zero]; exact not_lt.mpr hb)]
      have harg : solve_first_combination items budget 0 fuel (idx + 1)
          (if 0 < 0 then [] ++ [((items.getD idx default).name, 0,
            ((0 : Nat) : ℚ) * (items.getD idx default).price)] else [])
          ((0 : ℚ) + ((0 : Nat) : ℚ) * (items.getD idx default).price) (0 + 0) acc =
          (true, acc ++ [([], 0)]) := by
        simp only [Nat.cast_zero, zero_mul, add_zero, Nat.add_zero, lt_irrefl, if_false]
        exact ih (idx + 1) (by omega) (by omega) acc
      rw [harg]

theorem solve_all_zero_min (items : List Item) (budget : ℚ)
    (hp : ∀ it ∈ items, 0 < it.price) (hb : 0 ≤ budget) :
    ∀ (fuel idx : Nat), items.length - idx < fuel → idx ≤ items.length →
      ∀ acc : List PurchaseSol,
        ∃ t, solve_all_combinations items budget 0 fuel idx [] 0 0 acc =
          acc ++ ([], 0) :: t := by
  intro fuel
  induction fuel with
  | zero => intro idx h; omega
  | succ fuel ih =>
    intro idx hfuel hle acc
    simp only [solve_all_combinations]
    by_cases hlen : idx = items.length
    · rw [if_pos hlen, if_pos ⟨Nat.zero_le 0, hb⟩]
      exact ⟨[], rfl⟩
    · rw [if_neg hlen]
      have hidx : idx < items.length := by omega
      have hpr : 0 < (items.getD idx default).price :=
        hp _ (list_getD_mem items idx default hidx)
      have hbound : 1 ≤ (effMax budget (items.getD idx default) + 1).toNat := by
        have := effMax_pos budget (items.getD idx default) hb hpr
        omega
      obtain ⟨k, hk⟩ : ∃ k, (effMax budget (items.getD idx default) + 1).toNat = k + 1 :=
        ⟨(effMax budget (items.getD idx default) + 1).toNat - 1, by omega⟩
      rw [hk, List.range_succ_eq_map]
      simp only [qtyLoopAll]
      rw [if_neg (by simp only [Nat.cast_zero, zero_mul, add_zero]; exact not_lt.mpr hb)]
      obtain ⟨t1, ht1⟩ := ih (idx + 1) (by omega) (by omega) acc
      have harg : solve_all_combinations items budget 0 fuel (idx + 1)
          (if 0 < 0 then [] ++ [((items.getD idx default).name, 0,
            ((0 : Nat) : ℚ) * (items.getD idx default).price)] else [])
          ((0 : ℚ) + ((0 : Nat) : ℚ) * (items.getD idx default).price) (0 + 0) acc =
          acc ++ ([], 0) :: t1 := by
        simp only [Nat.cast_zero, zero_mul, add_zero, Nat.add_zero, lt_irrefl, if_false]
        exact ht1
      rw [harg]
      obtain ⟨t2, ht2⟩ := qtyLoopAll_acc_extends _
        (fun c co cn a => solve_all_acc_extends items budget 0 fuel (idx + 1) c co cn a)
        budget (items.getD idx default) (List.map Nat.succ (List.range k))
        [] 0 0 (acc ++ ([], 0) :: t1)
      rw [ht2, List.append_assoc]
      exact ⟨t1 ++ t2, by simp⟩

/-- C10: with `min_items = 0`, positive prices and a nonnegative budget,
the empty combination (no items, total cost 0) is accepted: it is among
the results of `find_all_solutions`, and `find_one_solution` returns it,
since quantity 0 is tried first for every item. -/
theorem empty_combination_accepted (items : List Item) (budget : ℚ)
    (hp : ∀ it ∈ items, 0 < it.price) (hb : 0 ≤ budget) :
    (([], (0 : ℚ)) ∈ find_all_solutions items budget 0) ∧
    find_one_solution items budget 0 = some ([], 0) := by
  constructor
  · obtain ⟨t, ht⟩ := solve_all_zero_min items budget hp hb
      (items.length + 1) 0 (by omega) (Nat.zero_le _) []
    unfold find_all_solutions
    rw [ht]
    simp
  · unfold find_one_solution
    rw [solve_first_zero_min items budget hp hb
      (items.length + 1) 0 (by omega) (Nat.zero_le _) []]
    rfl

theorem empty_combination_accepted_witness :
    (([], (0 : ℚ)) ∈ find_all_solutions itemsW 10 0) ∧
    find_one_solution itemsW 10 0 = some ([], 0) :=
  empty_combination_accepted itemsW 10 (by decide) (by decide)
